import Mathlib

/-!
# Verification of tpqbogo (Threaded Pseudo-Quantum Bogosort)

Shallow embedding of `src/tpqbogo.py`. The Python program generates every
permutation of the input array with `itertools.permutations`, spawns one
thread per permutation, each thread checks whether its candidate is
non-decreasing and, if so, appends a `ThreadResult` (under a lock) to a
shared list; after joining all threads, `r[0]` of that list is returned
inside a `Result`.

Concurrency is modelled by an explicit schedule: since each thread performs
at most a single atomic (lock-protected) append, any interleaving of the
threads produces the same result list as running the tasks sequentially in
lock-acquisition order, i.e. in the order of some permutation of the spawned
task list. Theorems therefore quantify over an arbitrary `sched` that is a
`List.Perm` of the spawn-order task list.

`r[0]` on an empty list raises `IndexError` in Python; the embedding returns
`Option Result`, with `none` modelling that raised exception. Likewise
`exit(1)` in `main` (which terminates the process via `SystemExit`) is
modelled by the error value `MainError.processExit 1`.
-/

namespace Tpqbogo

/-- Embeds the Python `ThreadResult` named tuple (src/tpqbogo.py lines 46-52). -/
structure ThreadResult where
  thread_id : Nat
  sorted_array : List Int
deriving DecidableEq, Repr

/-- Embeds the Python `Result` named tuple (src/tpqbogo.py lines 55-62). -/
structure Result where
  num_of_permutations : Nat
  successful_thread : ThreadResult
deriving DecidableEq, Repr

/-- Embeds the Python `MainResult` named tuple (src/tpqbogo.py lines 65-73). -/
structure MainResult where
  original_array : List Int
  elapsed_time_nanoseconds : Int
  result : Result
deriving DecidableEq, Repr

/-- `is_sorted = all(left <= right for left, right in zip(arr, arr[1:]))`
(src/tpqbogo.py line 156).  `arr[1:]` is `arr.tail`; Python `zip` truncates
to the shorter list, as does `List.zip`. -/
def is_sorted (arr : List Int) : Bool :=
  (arr.zip arr.tail).all (fun p => decide (p.1 ≤ p.2))

/-- For each position `i` of `l` in order, the pair `(l[i], l with position i
removed, order preserved)`.  This is the selection order used by
`itertools.permutations`. -/
def selections {α : Type} : List α → List (α × List α)
  | [] => []
  | x :: xs => (x, xs) :: (selections xs).map (fun p => (p.1, x :: p.2))

/-- Fuel-indexed permutation enumeration; see `itperms`. -/
def itpermsAux {α : Type} : Nat → List α → List (List α)
  | 0, _ => [[]]
  | n + 1, l => (selections l).flatMap (fun p => (itpermsAux n p.2).map (fun q => p.1 :: q))

/-- Embeds `[list(p) for p in permutations(arr)]` (src/tpqbogo.py line 170):
the full-length permutations of `arr` emitted by `itertools.permutations`,
which picks each position for the first element in index order and recurses
on the remaining positions (lexicographic in position indices).  The fuel is
always `l.length`, so the recursion is structural on the fuel. -/
def itperms {α : Type} (l : List α) : List (List α) :=
  itpermsAux l.length l

/-- Embeds the body of the inner `check_sort` thread (src/tpqbogo.py lines
144-166): if the candidate is sorted, append `ThreadResult(idx, arr)` to the
shared results list, otherwise leave it unchanged. -/
def check_sort (idx : Nat) (arr : List Int) (results : List ThreadResult) :
    List ThreadResult :=
  if is_sorted arr then results ++ [⟨idx, arr⟩] else results

/-- The spawned tasks in spawn order: `enumerate(arr_permutations)`
(src/tpqbogo.py line 179), each task carrying its id and its private copy of
the candidate permutation. -/
def spawnOrder (arr : List Int) : List (Nat × List Int) :=
  (itperms arr).enum

/-- Runs the given tasks sequentially, threading the shared results list:
the final contents of the locked results list when the lock was acquired by
successful threads in the order the tasks appear in the list. -/
def runTasks (tasks : List (Nat × List Int)) : List ThreadResult :=
  tasks.foldl (fun r t => check_sort t.1 t.2 r) []

/-- Embeds `tpqbogo` (src/tpqbogo.py lines 131-200) run under the thread
interleaving `sched`: `permutation_count = factorial(len(arr))`, the results
list is produced by the tasks, and `first_to_survive = r[0]` — `none` models
the `IndexError` Python would raise were the list empty. -/
def tpqbogoRun (arr : List Int) (sched : List (Nat × List Int)) : Option Result :=
  match runTasks sched with
  | [] => none
  | r0 :: _ => some ⟨Nat.factorial arr.length, r0⟩

/-- `tpqbogo` under the spawn-order schedule (one admissible interleaving). -/
def tpqbogo (arr : List Int) : Option Result :=
  tpqbogoRun arr (spawnOrder arr)

/-- Failure modes of `main`: `processExit c` models Python `exit(c)`
(src/tpqbogo.py line 279), which raises `SystemExit` and terminates the
process; `indexError` models the `IndexError` from `r[0]` on an empty
results list (src/tpqbogo.py line 197). -/
inductive MainError where
  | processExit (code : Nat)
  | indexError
deriving DecidableEq, Repr

/-- Observable side effects of one `main` run: how many `Locked` result
collectors were constructed and how many threads were spawned. -/
structure RunTrace where
  collectors_created : Nat
  threads_spawned : Nat
deriving DecidableEq, Repr

/-- `list(range(1, array_size + 1))` (src/tpqbogo.py line 273). -/
def initArray (array_size : Int) : List Int :=
  (List.range' 1 array_size.toNat).map (fun n => (n : Int))

/-- Embeds `main` (src/tpqbogo.py lines 264-295).  `shuffled` is the result
of the nondeterministic `shuffle(arr)` (callers constrain it to be a
permutation of `initArray array_size`); `elapsed` is the nondeterministic
timer difference.  The size check happens after the shuffle but before
`tpqbogo` is called, so on the error path no collector is created and no
thread is spawned. -/
def mainRun (array_size : Int) (shuffled : List Int) (elapsed : Int) :
    Except MainError MainResult × RunTrace :=
  if array_size < 1 then
    (Except.error (MainError.processExit 1), ⟨0, 0⟩)
  else
    match tpqbogo shuffled with
    | some res => (Except.ok ⟨shuffled, elapsed, res⟩, ⟨1, (itperms shuffled).length⟩)
    | none => (Except.error MainError.indexError, ⟨1, (itperms shuffled).length⟩)

/-! ## Properties of `selections` -/

theorem selections_length {α : Type} :
    ∀ (l : List α), ∀ p ∈ selections l, p.2.length + 1 = l.length := by
  intro l
  induction l with
  | nil => intro p hp; simp [selections] at hp
  | cons x xs ih =>
      intro p hp
      simp only [selections, List.mem_cons, List.mem_map] at hp
      rcases hp with rfl | ⟨q, hq, rfl⟩
      · simp
      · have := ih q hq
        simp only [List.length_cons]
        omega

theorem length_selections {α : Type} (l : List α) :
    (selections l).length = l.length := by
  induction l with
  | nil => rfl
  | cons x xs ih => simp [selections, ih]

theorem map_fst_selections {α : Type} (l : List α) :
    (selections l).map Prod.fst = l := by
  induction l with
  | nil => rfl
  | cons x xs ih =>
      simp only [selections, List.map_cons, List.map_map]
      have h : (Prod.fst ∘ fun p : α × List α => (p.1, x :: p.2)) = Prod.fst := rfl
      rw [h, ih]

theorem selections_perm {α : Type} :
    ∀ (l : List α), ∀ p ∈ selections l, (p.1 :: p.2).Perm l := by
  intro l
  induction l with
  | nil => intro p hp; simp [selections] at hp
  | cons x xs ih =>
      intro p hp
      simp only [selections, List.mem_cons, List.mem_map] at hp
      rcases hp with rfl | ⟨q, hq, rfl⟩
      · exact List.Perm.refl _
      · exact List.Perm.trans (List.Perm.swap x q.1 q.2) ((ih q hq).cons x)

theorem selections_sublist {α : Type} :
    ∀ (l : List α), ∀ p ∈ selections l, p.2.Sublist l := by
  intro l
  induction l with
  | nil => intro p hp; simp [selections] at hp
  | cons x xs ih =>
      intro p hp
      simp only [selections, List.mem_cons, List.mem_map] at hp
      rcases hp with rfl | ⟨q, hq, rfl⟩
      · exact List.sublist_cons_self x xs
      · exact (ih q hq).cons₂ x

theorem mem_selections_of_mem {α : Type} {y : α} :
    ∀ {l : List α}, y ∈ l → ∃ rest, (y, rest) ∈ selections l ∧ (y :: rest).Perm l := by
  intro l
  induction l with
  | nil => intro h; simp at h
  | cons x xs ih =>
      intro h
      rcases List.mem_cons.mp h with rfl | hmem
      · exact ⟨xs, by simp [selections], List.Perm.refl _⟩
      · obtain ⟨rest, hsel, hperm⟩ := ih hmem
        refine ⟨x :: rest, ?_, ?_⟩
        · simp only [selections, List.mem_cons, List.mem_map]
          exact Or.inr ⟨(y, rest), hsel, rfl⟩
        · exact List.Perm.trans (List.Perm.swap x y rest) (hperm.cons x)

/-! ## Properties of `itperms` -/

theorem length_itpermsAux {α : Type} :
    ∀ (n : Nat) (l : List α), l.length = n →
      (itpermsAux n l).length = Nat.factorial n := by
  intro n
  induction n with
  | zero => intro l _; rfl
  | succ n ih =>
      intro l hl
      have hmap : (selections l).map
            (List.length ∘ fun p => (itpermsAux n p.2).map (fun q => p.1 :: q))
          = (selections l).map (fun _ => Nat.factorial n) := by
        apply List.map_congr_left
        intro p hp
        have hlen := selections_length l p hp
        simp [Function.comp, ih p.2 (by omega)]
      simp only [itpermsAux, List.length_flatMap, hmap, List.map_const', List.sum_replicate,
        smul_eq_mul, length_selections, hl, Nat.factorial_succ]

theorem itperms_length {α : Type} (l : List α) :
    (itperms l).length = Nat.factorial l.length :=
  length_itpermsAux l.length l rfl

theorem mem_itpermsAux {α : Type} :
    ∀ (n : Nat) (l m : List α), l.length = n →
      (m ∈ itpermsAux n l ↔ m.Perm l) := by
  intro n
  induction n with
  | zero =>
      intro l m hl
      have : l = [] := List.length_eq_zero.mp hl
      subst this
      simp [itpermsAux, List.perm_nil]
  | succ n ih =>
      intro l m hl
      constructor
      · intro hm
        simp only [itpermsAux, List.mem_flatMap, List.mem_map] at hm
        obtain ⟨p, hp, q, hq, rfl⟩ := hm
        have hlen := selections_length l p hp
        have hq' : q.Perm p.2 := (ih p.2 q (by omega)).mp hq
        exact (hq'.cons p.1).trans (selections_perm l p hp)
      · intro hm
        have hmne : m ≠ [] := by
          intro h; subst h
          have := hm.length_eq
          simp [hl] at this
        obtain ⟨y, m', rfl⟩ := List.exists_cons_of_ne_nil hmne
        have hy : y ∈ l := hm.mem_iff.mp (List.mem_cons_self y m')
        obtain ⟨rest, hsel, hperm⟩ := mem_selections_of_mem hy
        have hm' : m'.Perm rest := by
          have : (y :: m').Perm (y :: rest) := hm.trans hperm.symm
          exact this.cons_inv
        have hrest : rest.length = n := by
          have := selections_length l (y, rest) hsel
          simp at this
          omega
        simp only [itpermsAux, List.mem_flatMap, List.mem_map]
        exact ⟨(y, rest), hsel, m', (ih rest m' hrest).mpr hm', rfl⟩

theorem mem_itperms {α : Type} (l m : List α) :
    m ∈ itperms l ↔ m.Perm l :=
  mem_itpermsAux l.length l m rfl

theorem nodup_itpermsAux {α : Type} :
    ∀ (n : Nat) (l : List α), l.length = n → l.Nodup →
      (itpermsAux n l).Nodup := by
  intro n
  induction n with
  | zero => intro l _ _; simp [itpermsAux]
  | succ n ih =>
      intro l hl hnd
      simp only [itpermsAux]
      rw [List.nodup_flatMap]
      constructor
      · intro p hp
        have hlen := selections_length l p hp
        refine List.Nodup.map ?_ (ih p.2 (by omega) ((selections_sublist l p hp).nodup hnd))
        intro a b hab
        exact (List.cons.injEq _ _ _ _ ▸ hab).2
      · have hfst : (selections l).Pairwise (fun p q => p.1 ≠ q.1) := by
          have := map_fst_selections l ▸ hnd
          exact (List.pairwise_map.mp this)
        refine hfst.imp ?_
        intro p q hpq
        intro m hmp hmq
        simp only [List.mem_map] at hmp hmq
        obtain ⟨a, _, rfl⟩ := hmp
        obtain ⟨b, _, hb⟩ := hmq
        exact hpq ((List.cons.injEq _ _ _ _ ▸ hb).1.symm)

theorem itperms_nodup {α : Type} (l : List α) (h : l.Nodup) :
    (itperms l).Nodup :=
  nodup_itpermsAux l.length l rfl h

/-! ## `is_sorted` versus `List.Sorted` -/

theorem is_sorted_iff_chain (l : List Int) :
    is_sorted l = true ↔ l.Chain' (· ≤ ·) := by
  induction l with
  | nil => simp [is_sorted]
  | cons x xs ih =>
      cases xs with
      | nil => simp [is_sorted]
      | cons y ys =>
          have hstep : is_sorted (x :: y :: ys) = (decide (x ≤ y) && is_sorted (y :: ys)) := rfl
          rw [hstep, List.chain'_cons, ← ih]
          simp [Bool.and_eq_true]

theorem is_sorted_iff_sorted (l : List Int) :
    is_sorted l = true ↔ l.Sorted (· ≤ ·) := by
  rw [is_sorted_iff_chain, List.chain'_iff_pairwise]
  rfl

/-- The sorted permutation of `arr` is among the generated permutations. -/
theorem sorted_mem_itperms (arr : List Int) :
    List.insertionSort (· ≤ ·) arr ∈ itperms arr
      ∧ is_sorted (List.insertionSort (· ≤ ·) arr) = true := by
  constructor
  · exact (mem_itperms arr _).mpr (List.perm_insertionSort (· ≤ ·) arr)
  · exact (is_sorted_iff_sorted _).mpr (List.sorted_insertionSort (· ≤ ·) arr)

/-- When the input has no duplicate values, exactly one generated
permutation is sorted. -/
theorem countP_is_sorted_itperms {arr : List Int} (h : arr.Nodup) :
    (itperms arr).countP (fun p => is_sorted p) = 1 := by
  set s := List.insertionSort (· ≤ ·) arr with hs
  have hsmem : s ∈ itperms arr := (sorted_mem_itperms arr).1
  have hssort : is_sorted s = true := (sorted_mem_itperms arr).2
  have huniq : ∀ m ∈ itperms arr, is_sorted m = true → m = s := by
    intro m hm hsort
    have hperm : m.Perm s :=
      ((mem_itperms arr m).mp hm).trans (List.perm_insertionSort (· ≤ ·) arr).symm
    exact List.eq_of_perm_of_sorted hperm
      ((is_sorted_iff_sorted m).mp hsort) (List.sorted_insertionSort (· ≤ ·) arr)
  rw [List.countP_eq_length_filter]
  have hfe : (itperms arr).filter (fun p => is_sorted p) = [s] := by
    have hnd : ((itperms arr).filter (fun p => is_sorted p)).Nodup :=
      ((itperms arr).filter_sublist).nodup (itperms_nodup arr h)
    have hmem : s ∈ (itperms arr).filter (fun p => is_sorted p) :=
      List.mem_filter.mpr ⟨hsmem, hssort⟩
    have hall : ∀ m ∈ (itperms arr).filter (fun p => is_sorted p), m = s := by
      intro m hm
      have := List.mem_filter.mp hm
      exact huniq m this.1 this.2
    cases hfil : (itperms arr).filter (fun p => is_sorted p) with
    | nil => rw [hfil] at hmem; simp at hmem
    | cons a rest =>
        rw [hfil] at hnd hall
        have ha : a = s := hall a (List.mem_cons_self a rest)
        have hrest : rest = [] := by
          cases rest with
          | nil => rfl
          | cons b rs =>
              have hb : b = s := hall b (by simp)
              have : a ∉ b :: rs := (List.nodup_cons.mp hnd).1
              rw [ha, hb] at this
              simp at this
        rw [ha, hrest]
  rw [hfe]
  rfl

/-! ## Behaviour of the task pool -/

theorem foldl_check_sort (tasks : List (Nat × List Int)) :
    ∀ acc : List ThreadResult,
      tasks.foldl (fun r t => check_sort t.1 t.2 r) acc
        = acc ++ (tasks.filter (fun t => is_sorted t.2)).map
            (fun t => (⟨t.1, t.2⟩ : ThreadResult)) := by
  induction tasks with
  | nil => intro acc; simp
  | cons t ts ih =>
      intro acc
      rw [List.foldl_cons, ih, List.filter_cons]
      by_cases hsrt : is_sorted t.2 = true
      · simp [check_sort, hsrt]
      · simp [check_sort, hsrt]

/-- The final contents of the results list: the successful tasks, in
schedule order, as `ThreadResult`s. -/
theorem runTasks_eq (tasks : List (Nat × List Int)) :
    runTasks tasks = (tasks.filter (fun t => is_sorted t.2)).map
      (fun t => (⟨t.1, t.2⟩ : ThreadResult)) := by
  simpa [runTasks] using foldl_check_sort tasks []

theorem countP_enumFrom {α : Type} (p : α → Bool) :
    ∀ (l : List α) (n : Nat),
      (List.enumFrom n l).countP (fun t => p t.2) = l.countP p := by
  intro l
  induction l with
  | nil => intro n; rfl
  | cons x xs ih =>
      intro n
      simp only [List.enumFrom, List.countP_cons, ih]

theorem countP_spawnOrder (arr : List Int) :
    (spawnOrder arr).countP (fun t => is_sorted t.2)
      = (itperms arr).countP (fun p => is_sorted p) := by
  simpa [spawnOrder, List.enum] using countP_enumFrom (fun p => is_sorted p) (itperms arr) 0

theorem snd_mem_of_mem_enumFrom {α : Type} {x : Nat × α} :
    ∀ {l : List α} {n : Nat}, x ∈ List.enumFrom n l → x.2 ∈ l := by
  intro l
  induction l with
  | nil => intro n h; simp [List.enumFrom] at h
  | cons y ys ih =>
      intro n h
      simp only [List.enumFrom, List.mem_cons] at h
      rcases h with rfl | h
      · simp
      · exact List.mem_cons_of_mem y (ih h)

/-- Results list length under any schedule: the number of sorted
permutations among the generated ones. -/
theorem runTasks_length (arr : List Int) (sched : List (Nat × List Int))
    (hs : sched.Perm (spawnOrder arr)) :
    (runTasks sched).length = (itperms arr).countP (fun p => is_sorted p) := by
  rw [runTasks_eq, List.length_map, ← List.countP_eq_length_filter,
    hs.countP_eq, countP_spawnOrder]

/-- Anything returned by `tpqbogoRun` is `factorial (len arr)` paired with
a `ThreadResult` coming from a successful task of the schedule. -/
theorem tpqbogoRun_some {arr : List Int} {sched : List (Nat × List Int)} {res : Result}
    (h : tpqbogoRun arr sched = some res) :
    res.num_of_permutations = Nat.factorial arr.length
      ∧ ∃ t ∈ sched, is_sorted t.2 = true ∧ res.successful_thread = ⟨t.1, t.2⟩ := by
  rw [tpqbogoRun] at h
  cases hr : runTasks sched with
  | nil => rw [hr] at h; simp at h
  | cons r0 rest =>
      rw [hr] at h
      have hres : res = ⟨Nat.factorial arr.length, r0⟩ := (Option.some.inj h).symm
      subst hres
      refine ⟨rfl, ?_⟩
      have hr0 : r0 ∈ runTasks sched := by rw [hr]; exact List.mem_cons_self r0 rest
      rw [runTasks_eq] at hr0
      obtain ⟨t, htf, hteq⟩ := List.mem_map.mp hr0
      have := List.mem_filter.mp htf
      exact ⟨t, this.1, this.2, hteq.symm⟩

example : is_sorted [1, 2, 2, 3] = true := by decide
example : is_sorted [2, 1] = false := by decide
example : itperms [1, 2, 3] =
    [[1, 2, 3], [1, 3, 2], [2, 1, 3], [2, 3, 1], [3, 1, 2], [3, 2, 1]] := by decide
example : tpqbogo [2, 1] = some ⟨2, ⟨1, [1, 2]⟩⟩ := by decide
example : tpqbogo [3, 1, 2] = some ⟨6, ⟨3, [1, 2, 3]⟩⟩ := by decide

/-! ## Claims -/

/-- C1: For every array size N ≥ 1 and any ordering of the input array (and
any thread interleaving `sched`), the Result returned by `tpqbogo` contains
a winning candidate (`successful_thread.sorted_array`) that is
non-decreasing, i.e. `is_sorted` applied to it returns true. -/
theorem C1_winner_sorted (arr : List Int) (sched : List (Nat × List Int))
    (_hs : sched.Perm (spawnOrder arr)) (_hN : 1 ≤ arr.length)
    (res : Result) (hres : tpqbogoRun arr sched = some res) :
    is_sorted res.successful_thread.sorted_array = true := by
  obtain ⟨-, t, -, hsort, hteq⟩ := tpqbogoRun_some hres
  rw [hteq]
  exact hsort

theorem C1_winner_sorted_witness :
    is_sorted (Result.successful_thread ⟨2, ⟨1, [1, 2]⟩⟩).sorted_array = true :=
  C1_winner_sorted [2, 1] (spawnOrder [2, 1]) (List.Perm.refl _) (by decide)
    ⟨2, ⟨1, [1, 2]⟩⟩ (by decide)

/-- C2: For every array size N ≥ 1 and any input ordering (and any thread
interleaving), the multiset of elements of the winning candidate equals the
multiset of elements of the original input array. -/
theorem C2_winner_permutation (arr : List Int) (sched : List (Nat × List Int))
    (hs : sched.Perm (spawnOrder arr)) (_hN : 1 ≤ arr.length)
    (res : Result) (hres : tpqbogoRun arr sched = some res) :
    res.successful_thread.sorted_array.Perm arr
      ∧ (res.successful_thread.sorted_array : Multiset Int) = (arr : Multiset Int) := by
  obtain ⟨-, t, htmem, -, hteq⟩ := tpqbogoRun_some hres
  have ht : t ∈ spawnOrder arr := hs.mem_iff.mp htmem
  have ht2 : t.2 ∈ itperms arr := List.snd_mem_of_mem_enum ht
  have hperm : res.successful_thread.sorted_array.Perm arr := by
    rw [hteq]
    exact (mem_itperms arr t.2).mp ht2
  exact ⟨hperm, Multiset.coe_eq_coe.mpr hperm⟩

theorem C2_winner_permutation_witness :
    (Result.successful_thread ⟨2, ⟨1, [1, 2]⟩⟩).sorted_array.Perm [2, 1]
      ∧ ((Result.successful_thread ⟨2, ⟨1, [1, 2]⟩⟩).sorted_array : Multiset Int)
          = (([2, 1] : List Int) : Multiset Int) :=
  C2_winner_permutation [2, 1] (spawnOrder [2, 1]) (List.Perm.refl _) (by decide)
    ⟨2, ⟨1, [1, 2]⟩⟩ (by decide)

/-- C3: For every array size N ≥ 1, the `num_of_permutations` field of the
Result returned by `tpqbogo` equals `factorial N`, and it equals the number
of permutations actually generated (`itperms`) and checked (one task per
permutation in the schedule). -/
theorem C3_permutation_count (arr : List Int) (sched : List (Nat × List Int))
    (hs : sched.Perm (spawnOrder arr)) (_hN : 1 ≤ arr.length)
    (res : Result) (hres : tpqbogoRun arr sched = some res) :
    res.num_of_permutations = Nat.factorial arr.length
      ∧ (itperms arr).length = Nat.factorial arr.length
      ∧ sched.length = Nat.factorial arr.length := by
  refine ⟨(tpqbogoRun_some hres).1, itperms_length arr, ?_⟩
  rw [hs.length_eq, spawnOrder, List.enum_length, itperms_length]

theorem C3_permutation_count_witness :
    (Result.num_of_permutations ⟨2, ⟨1, [1, 2]⟩⟩) = Nat.factorial ([2, 1] : List Int).length
      ∧ (itperms [2, 1]).length = Nat.factorial ([2, 1] : List Int).length
      ∧ (spawnOrder [2, 1]).length = Nat.factorial ([2, 1] : List Int).length :=
  C3_permutation_count [2, 1] (spawnOrder [2, 1]) (List.Perm.refl _) (by decide)
    ⟨2, ⟨1, [1, 2]⟩⟩ (by decide)

/-- C5: For every array size N ≥ 1 (and any thread interleaving), the
result list read after the join barrier is non-empty, so the selection of
the first recorded outcome never hits the empty case; and if the list were
nevertheless empty, the pass would end in the raised `IndexError` from
`r[0]` (modelled by `none`) rather than return a degenerate `Result`. -/
theorem C5_results_nonempty (arr : List Int) (sched : List (Nat × List Int))
    (hs : sched.Perm (spawnOrder arr)) (_hN : 1 ≤ arr.length) :
    runTasks sched ≠ []
      ∧ (∃ res, tpqbogoRun arr sched = some res)
      ∧ ∀ (arr2 : List Int) (sched2 : List (Nat × List Int)),
          runTasks sched2 = [] → tpqbogoRun arr2 sched2 = none := by
  have hlen : 0 < (runTasks sched).length := by
    rw [runTasks_length arr sched hs]
    exact List.countP_pos_iff.mpr
      ⟨_, (sorted_mem_itperms arr).1, (sorted_mem_itperms arr).2⟩
  refine ⟨?_, ?_, ?_⟩
  · intro h
    rw [h] at hlen
    simp at hlen
  · cases hr : runTasks sched with
    | nil => rw [hr] at hlen; simp at hlen
    | cons r0 rest =>
        exact ⟨⟨Nat.factorial arr.length, r0⟩, by rw [tpqbogoRun, hr]⟩
  · intro arr2 sched2 h2
    rw [tpqbogoRun, h2]

theorem C5_results_nonempty_witness :
    runTasks (spawnOrder [2, 1]) ≠ []
      ∧ (∃ res, tpqbogoRun [2, 1] (spawnOrder [2, 1]) = some res)
      ∧ ∀ (arr2 : List Int) (sched2 : List (Nat × List Int)),
          runTasks sched2 = [] → tpqbogoRun arr2 sched2 = none :=
  C5_results_nonempty [2, 1] (spawnOrder [2, 1]) (List.Perm.refl _) (by decide)

/-- C6: For every input sequence of length N, the permutation generation
step deterministically produces exactly N! orderings (`itperms` is a pure
function, so determinism and restartability are inherent); membership is
exactly the permutations of the input, with no duplicates when the input
values are distinct (elements treated by position); and each spawned task
receives a unique non-negative id assigned by enumeration order: the ids
are exactly `0, 1, ..., N! - 1` in order. -/
theorem C6_generation (arr : List Int) :
    (itperms arr).length = Nat.factorial arr.length
      ∧ (∀ m, m ∈ itperms arr ↔ m.Perm arr)
      ∧ (arr.Nodup → (itperms arr).Nodup)
      ∧ (spawnOrder arr).map Prod.fst = List.range (Nat.factorial arr.length) := by
  refine ⟨itperms_length arr, fun m => mem_itperms arr m, itperms_nodup arr, ?_⟩
  rw [spawnOrder, List.enum_map_fst, itperms_length]

/-- C7: After all tasks have finished, under any thread interleaving the
length of the result list equals exactly the number of generated
permutations that are actually sorted (no outcome lost, none duplicated);
in particular, for an input of N distinct elements the list holds exactly
one `ThreadResult`. -/
theorem C7_no_lost_results (arr : List Int) (sched : List (Nat × List Int))
    (hs : sched.Perm (spawnOrder arr)) :
    (runTasks sched).length = (itperms arr).countP (fun p => is_sorted p)
      ∧ (arr.Nodup → (runTasks sched).length = 1) := by
  refine ⟨runTasks_length arr sched hs, fun h => ?_⟩
  rw [runTasks_length arr sched hs, countP_is_sorted_itperms h]

theorem C7_no_lost_results_witness :
    (runTasks (spawnOrder [2, 1])).length = (itperms [2, 1]).countP (fun p => is_sorted p)
      ∧ (([2, 1] : List Int).Nodup → (runTasks (spawnOrder [2, 1])).length = 1) :=
  C7_no_lost_results [2, 1] (spawnOrder [2, 1]) (List.Perm.refl _)

/-- C8: The sortedness check returns true if and only if every adjacent
pair satisfies `seq[i] ≤ seq[i+1]`; in particular it returns true for every
sequence of length 0 or 1. -/
theorem C8_is_sorted_adjacent (l : List Int) :
    (is_sorted l = true ↔
        ∀ (i : Nat) (h : i + 1 < l.length),
          l.get ⟨i, by omega⟩ ≤ l.get ⟨i + 1, h⟩)
      ∧ (l.length ≤ 1 → is_sorted l = true) := by
  constructor
  · rw [is_sorted_iff_chain, List.chain'_iff_get]
    constructor
    · intro hg i h
      exact hg i (by omega)
    · intro hg i h
      exact hg i (by omega)
  · intro hlen
    cases l with
    | nil => rfl
    | cons x xs =>
        cases xs with
        | nil => rfl
        | cons y ys => simp at hlen

/-- C9: The evaluation never mutates the input array (the embedding has
value semantics, matching the Python code, which hands each thread a fresh
copy `list(perm)` and only ever reads `arr`); and the `original_array`
recorded in `MainResult` is exactly the post-shuffle, pre-sort input that
was passed to `tpqbogo`. -/
theorem C9_original_array_preserved (array_size : Int) (shuffled : List Int)
    (elapsed : Int) (mr : MainResult) (tr : RunTrace)
    (h : mainRun array_size shuffled elapsed = (Except.ok mr, tr)) :
    mr.original_array = shuffled := by
  by_cases hlt : array_size < 1
  · rw [mainRun, if_pos hlt] at h
    exact absurd (congrArg Prod.fst h) (by simp)
  · rw [mainRun, if_neg hlt] at h
    cases htp : tpqbogo shuffled with
    | none =>
        rw [htp] at h
        exact absurd (congrArg Prod.fst h) (by simp)
    | some res =>
        rw [htp] at h
        have h1 : (Except.ok (MainResult.mk shuffled elapsed res) : Except MainError MainResult)
            = Except.ok mr := congrArg Prod.fst h
        have h2 : MainResult.mk shuffled elapsed res = mr := Except.ok.inj h1
        rw [← h2]

theorem C9_original_array_preserved_witness :
    MainResult.original_array ⟨[2, 1], 5, ⟨2, ⟨1, [1, 2]⟩⟩⟩ = [2, 1] :=
  C9_original_array_preserved 2 [2, 1] 5 ⟨[2, 1], 5, ⟨2, ⟨1, [1, 2]⟩⟩⟩ ⟨1, 2⟩ rfl

/-- C10: Calling `tpqbogo` directly on the empty list does not hit any size
check (that check lives only in `main`): it returns a Result with
`num_of_permutations = 1` and a `successful_thread` with `thread_id = 0`
and `sorted_array = []`, because the single empty permutation is trivially
sorted. -/
theorem C10_empty_list :
    tpqbogo [] = some ⟨1, ⟨0, []⟩⟩ := by decide

/-- C4 counterexample: at size 0, the failure path of `main` is Python
`exit(1)` — a `SystemExit` that terminates the process, modelled by
`MainError.processExit 1`.  The claim that the failure is "fatal to the
requested run but not to the process" is therefore false: the code defines
no `InvalidSizeError`; it prints to stderr and kills the process. -/
theorem C4_counterexample :
    (mainRun 0 [] 0).1 = Except.error (MainError.processExit 1)
      ∧ (mainRun 0 [] 0).1 ≠ Except.error MainError.indexError := by
  constructor
  · rfl
  · intro h
    have h0 : (mainRun 0 [] 0).1 = Except.error (MainError.processExit 1) := rfl
    have h2 : MainError.processExit 1 = MainError.indexError :=
      Except.error.inj (h0.symm.trans h)
    cases h2

/-- C4 (amended): For every size < 1 (zero or negative), `main` fails
before any task is spawned and before any result collector is created —
but the failure is a process exit with status 1 (Python `exit(1)`), fatal
to the process, not a recoverable `InvalidSizeError`. -/
theorem C4_amended_invalid_size (array_size : Int) (shuffled : List Int) (elapsed : Int)
    (h : array_size < 1) :
    mainRun array_size shuffled elapsed
      = (Except.error (MainError.processExit 1), ⟨0, 0⟩) := by
  rw [mainRun, if_pos h]

theorem C4_amended_invalid_size_witness :
    mainRun 0 [] 0 = (Except.error (MainError.processExit 1), ⟨0, 0⟩) :=
  C4_amended_invalid_size 0 [] 0 (by decide)

end Tpqbogo
